import Mathlib

/-!
Verification of the Icarus DOM core: a shallow embedding of `src/dom.rs`
(node graph, tree mutation primitives, queries) and of the tree-construction
sink `src/html/parser.rs` (`DomSink`), together with theorems settling the
specification claims about them.

The mutable `Rc<Node>`/`Weak<Node>` graph is embedded as a heap (`Store`):
node identity (Rust pointer identity, `Rc::ptr_eq`) becomes the index of the
node's record in an allocation list, a `Weak` parent back-reference becomes
`Option Nat` (`none` = `Weak::new()` / unattached), and every mutation is an
explicit store-to-store function.  Read-only queries (`get_text_content`,
`get_elements_by_tag_name`) are additionally embedded over an inductive tree
(`DomTree`), matching their purely recursive reading of an acyclic tree.
-/

namespace Icarus

/-- `QualName` from `src/dom.rs`: prefix, namespace, local name, plus the two
interned atoms kept for protocol interop (atoms modelled as strings). -/
structure QualName where
  pfx : Option String
  ns : String
  localName : String
  nsAtom : String
  localAtom : String
deriving DecidableEq, Repr

/-- `Attribute` from `src/dom.rs`: a qualified name and a string value. -/
structure Attribute where
  name : QualName
  value : String
deriving DecidableEq, Repr

/-- `NodeData` from `src/dom.rs`: the closed tagged union of node variants. -/
inductive NodeData where
  | document
  | element (name : QualName) (attrs : List Attribute)
  | text (contents : String)
  | comment (contents : String)
  | doctype (name publicId systemId : String)
deriving DecidableEq, Repr

/-- `Node::element_name` from `src/dom.rs`: the local tag name of an
Element, `none` for every other variant. -/
def NodeData.elementName : NodeData → Option String
  | .element n _ => some n.localName
  | _ => none

/-- One heap record for a `Node`: its immutable `data`, the weak `parent`
back-reference (`none` when unattached), and the ordered list of child
identities (the `children` vector of `Rc`s). -/
structure NodeRec where
  data : NodeData
  parent : Option Nat
  children : List Nat
deriving DecidableEq, Repr

/-- The heap: all nodes ever allocated, in allocation order.  A node's
identity is its index; `Rc::ptr_eq` is index equality. -/
structure Store where
  recs : List NodeRec
deriving DecidableEq, Repr

/-- Replace the record at index `i` by `f` of it; out-of-range indices leave
the list unchanged (theorems about operations carry the bounds that make
this case unreachable, as Rust's live `Rc`s do). -/
def modifyAt (l : List NodeRec) (i : Nat) (f : NodeRec → NodeRec) : List NodeRec :=
  match l, i with
  | [], _ => []
  | x :: xs, 0 => f x :: xs
  | x :: xs, i + 1 => x :: modifyAt xs i f
/-- The number of nodes ever allocated; also the next fresh identity. -/
def Store.numNodes (s : Store) : Nat := s.recs.length

/-- The `data` field of node `i` (`none` if `i` was never allocated). -/
def Store.dataOf (s : Store) (i : Nat) : Option NodeData :=
  (s.recs[i]?).map (·.data)

/-- The parent back-reference of node `i` after upgrading: `none` both for an
unattached node (`Weak::new()`) and for an unallocated identity. -/
def Store.parentOf (s : Store) (i : Nat) : Option Nat :=
  match s.recs[i]? with
  | some r => r.parent
  | none => none

/-- The children list of node `i` (`[]` for an unallocated identity). -/
def Store.childrenOf (s : Store) (i : Nat) : List Nat :=
  match s.recs[i]? with
  | some r => r.children
  | none => []

/-- `*child.parent.borrow_mut() = ...`: overwrite the parent back-reference
of node `c`. -/
def Store.setParentOf (s : Store) (c : Nat) (p : Option Nat) : Store :=
  ⟨modifyAt s.recs c (fun r => { r with parent := p })⟩

/-- Apply `f` to the children vector of node `p` (a `children.borrow_mut()`
mutation). -/
def Store.modifyChildrenOf (s : Store) (p : Nat) (f : List Nat → List Nat) : Store :=
  ⟨modifyAt s.recs p (fun r => { r with children := f r.children })⟩

/-- `Node::new` from `src/dom.rs`: allocate a node with the given data, an
empty (`Weak::new()`) parent and no children; returns the new store and the
fresh identity. -/
def Store.newNode (s : Store) (d : NodeData) : Store × Nat :=
  (⟨s.recs ++ [⟨d, none, []⟩]⟩, s.recs.length)

/-- `Node::append_child` from `src/dom.rs`: point `child`'s back-reference at
`parent`, then push `child` at the end of `parent`'s children. -/
def Store.appendChild (s : Store) (p c : Nat) : Store :=
  (s.setParentOf c (some p)).modifyChildrenOf p (fun ch => ch ++ [c])

/-- The list edit made by `Node::insert_before`: insert `c` immediately
before the first occurrence of `r` (the `position` of the first `ptr_eq`
match), falling back to a push at the end when `r` does not occur. -/
def insertBeforeList (ch : List Nat) (c r : Nat) : List Nat :=
  match ch with
  | [] => [c]
  | x :: xs => if x = r then c :: x :: xs else x :: insertBeforeList xs c r

/-- `Node::insert_before` from `src/dom.rs`: point `child`'s back-reference
at `parent`, then splice `child` in before `reference` (push at end if
`reference` is not a child of `parent`). -/
def Store.insertBefore (s : Store) (p c r : Nat) : Store :=
  (s.setParentOf c (some p)).modifyChildrenOf p (fun ch => insertBeforeList ch c r)

/-- `Node::remove_child` from `src/dom.rs`: `children.retain(|n| !Rc::ptr_eq(n, child))`,
keeping exactly the children that are not `child`.  The child's own parent
back-reference is not touched. -/
def Store.removeChild (s : Store) (p c : Nat) : Store :=
  s.modifyChildrenOf p (fun ch => ch.filter (fun n => n ≠ c))

/-- `NodeOrText` of the sink protocol: an existing node handle or a text
fragment. -/
inductive NodeOrText where
  | appendNode (n : Nat)
  | appendText (t : String)
deriving DecidableEq, Repr

/-- The text arm of `DomSink::append` from `src/html/parser.rs`: if the last
child of `parent` is a Text node, pop it and append a freshly allocated Text
node holding the old contents followed by the new text; otherwise append a
freshly allocated Text node holding just the new text. -/
def Store.sinkAppendText (s : Store) (p : Nat) (t : String) : Store :=
  match (s.childrenOf p).getLast? with
  | some lastId =>
    match s.dataOf lastId with
    | some (.text contents) =>
      let s1 := s.modifyChildrenOf p (fun ch => ch.dropLast)
      let a := s1.newNode (.text (contents ++ t))
      a.1.appendChild p a.2
    | _ =>
      let a := s.newNode (.text t)
      a.1.appendChild p a.2
  | none =>
    let a := s.newNode (.text t)
    a.1.appendChild p a.2

/-- `DomSink::append` from `src/html/parser.rs`: a node is delegated to
`Node::append_child`; text goes through the coalescing text arm. -/
def Store.sinkAppend (s : Store) (p : Nat) : NodeOrText → Store
  | .appendNode n => s.appendChild p n
  | .appendText t => s.sinkAppendText p t

/-- `DomSink::append_before_sibling` from `src/html/parser.rs`: upgrade the
sibling's parent back-reference — `.expect(...)` aborts (modelled as `none`)
when the sibling is unattached — then `insert_before` either the given node
or a freshly allocated Text node carrying the text (no coalescing here). -/
def Store.appendBeforeSibling (s : Store) (sib : Nat) : NodeOrText → Option Store
  | .appendNode n =>
    match s.parentOf sib with
    | none => none
    | some p => some (s.insertBefore p n sib)
  | .appendText t =>
    match s.parentOf sib with
    | none => none
    | some p =>
      let a := s.newNode (.text t)
      some (a.1.insertBefore p a.2 sib)

/-- `DomSink::append_doctype_to_document` from `src/html/parser.rs`:
allocate a Doctype node and append it as a child of `root`. -/
def Store.appendDoctypeToDocument (s : Store) (root : Nat)
    (name publicId systemId : String) : Store :=
  let a := s.newNode (.doctype name publicId systemId)
  a.1.appendChild root a.2

/-- `DomSink::remove_from_parent` from `src/html/parser.rs`: if the target's
parent upgrades, detach via `remove_child`; otherwise do nothing. -/
def Store.removeFromParent (s : Store) (t : Nat) : Store :=
  match s.parentOf t with
  | some p => s.removeChild p t
  | none => s

/-- `DomSink::reparent_children` from `src/html/parser.rs`: copy the child
list of `n`, clear it, then `append_child` each copied child to `np` in
order. -/
def Store.reparentChildren (s : Store) (n np : Nat) : Store :=
  let cs := s.childrenOf n
  let s1 := s.modifyChildrenOf n (fun _ => [])
  cs.foldl (fun acc c => acc.appendChild np c) s1
/-- Whether node `i` currently holds Text data (the `NodeData::Text` test
done on the last child in `DomSink::append`). -/
def Store.isTextNode (s : Store) (i : Nat) : Bool :=
  match s.dataOf i with
  | some (.text _) => true
  | _ => false

/-- The identity `append_before_sibling` inserts: the node itself for a node
argument, the next fresh identity for a text argument. -/
def NodeOrText.insertedId (x : NodeOrText) (s : Store) : Nat :=
  match x with
  | .appendNode n => n
  | .appendText _ => s.numNodes

/-- Whether some two adjacent entries of the list are both Text nodes of
`s` — the situation the coalescing invariant forbids. -/
def consecTexts (s : Store) : List Nat → Bool
  | a :: b :: rest => (s.isTextNode a && s.isTextNode b) || consecTexts s (b :: rest)
  | _ => false

/-- Every child identity stored anywhere denotes an allocated node — true of
every state reachable through the operations, since a Rust `Rc<Node>` child
is always a live allocation. -/
def Store.boundedB (s : Store) : Bool :=
  s.recs.all (fun r => r.children.all (fun c => decide (c < s.recs.length)))

/-- One mutating operation of the Node/Document/Sink layer. -/
inductive DomOp where
  | newNode (d : NodeData)
  | appendChild (p c : Nat)
  | insertBefore (p c r : Nat)
  | removeChild (p c : Nat)
  | sinkAppend (p : Nat) (x : NodeOrText)
  | appendBeforeSibling (sib : Nat) (x : NodeOrText)
  | appendDoctypeToDocument (root : Nat) (name publicId systemId : String)
  | removeFromParent (t : Nat)
  | reparentChildren (n np : Nat)
deriving DecidableEq, Repr

/-- Apply one operation.  A failing `append_before_sibling` aborts the whole
parse, leaving no subsequent state to observe; the embedding keeps the prior
store in that branch. -/
def Store.applyDomOp (s : Store) : DomOp → Store
  | .newNode d => (s.newNode d).1
  | .appendChild p c => s.appendChild p c
  | .insertBefore p c r => s.insertBefore p c r
  | .removeChild p c => s.removeChild p c
  | .sinkAppend p x => s.sinkAppend p x
  | .appendBeforeSibling sib x => (s.appendBeforeSibling sib x).getD s
  | .appendDoctypeToDocument root name publicId systemId =>
      s.appendDoctypeToDocument root name publicId systemId
  | .removeFromParent t => s.removeFromParent t
  | .reparentChildren n np => s.reparentChildren n np

/-- Apply a sequence of operations left to right. -/
def Store.applyDomOps (s : Store) : List DomOp → Store
  | [] => s
  | op :: ops => (s.applyDomOp op).applyDomOps ops

/-- The three tree-building primitives the attachment claim quantifies over:
`Node::new`, `Node::append_child`, `Node::insert_before`. -/
inductive TreeOp where
  | newNode (d : NodeData)
  | appendChild (p c : Nat)
  | insertBefore (p c r : Nat)
deriving DecidableEq, Repr

/-- Apply one tree-building primitive. -/
def Store.applyTreeOp (s : Store) : TreeOp → Store
  | .newNode d => (s.newNode d).1
  | .appendChild p c => s.appendChild p c
  | .insertBefore p c r => s.insertBefore p c r

/-- Apply a sequence of tree-building primitives left to right. -/
def Store.applyTreeOps (s : Store) : List TreeOp → Store
  | [] => s
  | op :: ops => (s.applyTreeOp op).applyTreeOps ops

/-- The empty heap: nothing allocated yet. -/
def emptyStore : Store := ⟨[]⟩

/-- Run a sequence of tree operations from the empty heap: exactly the
"starting from freshly created nodes" setting of the attachment claim. -/
def runTreeOps (ops : List TreeOp) : Store := emptyStore.applyTreeOps ops

/-- Well-formedness of an operation sequence starting from `n` allocated
nodes: every identity an operation touches denotes an already-allocated
node.  In Rust this is automatic — an `Rc<Node>` argument is always a live
allocation. -/
def wfTreeOps (n : Nat) : List TreeOp → Bool
  | [] => true
  | .newNode _ :: ops => wfTreeOps (n + 1) ops
  | .appendChild p c :: ops => decide (p < n) && decide (c < n) && wfTreeOps n ops
  | .insertBefore p c r :: ops =>
      decide (p < n) && decide (c < n) && decide (r < n) && wfTreeOps n ops

/-- The node an operation attaches (its `child` argument), if any. -/
def childArg : TreeOp → Option Nat
  | .newNode _ => none
  | .appendChild _ c => some c
  | .insertBefore _ c _ => some c

/-- All nodes attached by a sequence, in order, with multiplicity. -/
def childArgs (ops : List TreeOp) : List Nat := ops.filterMap childArg
/-- An acyclic view of a node and its subtree, used to embed the read-only
recursive queries of `src/dom.rs` (`collect_text`,
`collect_elements_by_tag_name`), which read the tree purely. -/
inductive DomTree where
  | mk (data : NodeData) (children : List DomTree)

/-- The `data` of the root of a subtree. -/
def DomTree.data : DomTree → NodeData
  | .mk d _ => d

/-- The children of the root of a subtree. -/
def DomTree.children : DomTree → List DomTree
  | .mk _ cs => cs

mutual

/-- `Node::collect_text` from `src/dom.rs`: a Text node appends its contents
to the buffer (its children are not visited); every other variant visits its
children in order. -/
def DomTree.collectText : DomTree → String → String
  | .mk (.text c) _, buffer => buffer ++ c
  | .mk .document cs, buffer => DomTree.collectTextList cs buffer
  | .mk (.element _ _) cs, buffer => DomTree.collectTextList cs buffer
  | .mk (.comment _) cs, buffer => DomTree.collectTextList cs buffer
  | .mk (.doctype _ _ _) cs, buffer => DomTree.collectTextList cs buffer

/-- The `for child in children` loop of `collect_text`, threading the
buffer left to right. -/
def DomTree.collectTextList : List DomTree → String → String
  | [], buffer => buffer
  | t :: ts, buffer => DomTree.collectTextList ts (DomTree.collectText t buffer)

end

/-- `Node::get_text_content` from `src/dom.rs`: run `collect_text` on an
empty buffer. -/
def DomTree.getTextContent (t : DomTree) : String :=
  t.collectText ""


/-- The ASCII lower-casing of one character, as in Rust's
`u8::to_ascii_lowercase`: shift `A`..`Z` by 32, leave everything else. -/
def asciiLowerChar (c : Char) : Char :=
  if 65 ≤ c.toNat ∧ c.toNat ≤ 90 then Char.ofNat (c.toNat + 32) else c

/-- Rust's `str::eq_ignore_ascii_case`: equality after ASCII-lower-casing
both sides. -/
def eqIgnoreAsciiCase (a b : String) : Bool :=
  a.data.map asciiLowerChar = b.data.map asciiLowerChar

/-- The match test of `collect_elements_by_tag_name`: `element_name`
present and equal to `tag` up to ASCII case. -/
def DomTree.matchesTag (t : DomTree) (tag : String) : Bool :=
  match t.data.elementName with
  | some nm => eqIgnoreAsciiCase nm tag
  | none => false

mutual

/-- `Document::collect_elements_by_tag_name` from `src/dom.rs`: push the
node itself when its element name matches `tag` ASCII-case-insensitively,
then recurse into the children in order (depth-first pre-order). -/
def DomTree.collectElements : DomTree → String → List DomTree
  | .mk d cs, tag =>
    (if (DomTree.mk d cs).matchesTag tag then [DomTree.mk d cs] else []) ++
      DomTree.collectElementsList cs tag

/-- The `for child in children` loop of `collect_elements_by_tag_name`. -/
def DomTree.collectElementsList : List DomTree → String → List DomTree
  | [], _ => []
  | t :: ts, tag => DomTree.collectElements t tag ++ DomTree.collectElementsList ts tag

end

/-- A `Document` of `src/dom.rs`: a root node (of variant Document in any
tree the sink builds). -/
structure DomDocument where
  root : DomTree

/-- `Document::get_elements_by_tag_name` from `src/dom.rs`: collect from the
root. -/
def DomDocument.getElementsByTagName (d : DomDocument) (tag : String) : List DomTree :=
  d.root.collectElements tag

mutual

/-- Modelled from the spec: the depth-first pre-order (document-order) list
of the subtrees of a node, the node itself first, then, left to right, the
preorders of its children.  Used as the specification side of the query
claims. -/
def DomTree.preorder : DomTree → List DomTree
  | .mk d cs => DomTree.mk d cs :: DomTree.preorderList cs

/-- Pre-orders of a list of siblings, left to right. -/
def DomTree.preorderList : List DomTree → List DomTree
  | [] => []
  | t :: ts => DomTree.preorder t ++ DomTree.preorderList ts

end

mutual

/-- Modelled from the spec: the contents of all Text nodes among a node and
its descendants, in document order, descending into every child list. -/
def DomTree.textsOf : DomTree → List String
  | .mk (.text c) cs => c :: DomTree.textsOfList cs
  | .mk .document cs => DomTree.textsOfList cs
  | .mk (.element _ _) cs => DomTree.textsOfList cs
  | .mk (.comment _) cs => DomTree.textsOfList cs
  | .mk (.doctype _ _ _) cs => DomTree.textsOfList cs

/-- Document-order text contents of a list of siblings. -/
def DomTree.textsOfList : List DomTree → List String
  | [] => []
  | t :: ts => DomTree.textsOf t ++ DomTree.textsOfList ts

end

mutual

/-- Whether every Text node in the tree is a leaf (true of every tree the
sink or the parser ever builds: text nodes are allocated childless and never
appended to). -/
def DomTree.textLeaves : DomTree → Bool
  | .mk (.text _) cs => cs.isEmpty
  | .mk .document cs => DomTree.textLeavesList cs
  | .mk (.element _ _) cs => DomTree.textLeavesList cs
  | .mk (.comment _) cs => DomTree.textLeavesList cs
  | .mk (.doctype _ _ _) cs => DomTree.textLeavesList cs

/-- `textLeaves` over a list of siblings. -/
def DomTree.textLeavesList : List DomTree → Bool
  | [] => true
  | t :: ts => DomTree.textLeaves t && DomTree.textLeavesList ts

end


/-- Concatenation of a list of strings, in order. -/
def concatAll (l : List String) : String := l.foldr (fun a b => a ++ b) ""
/-- A concrete tree used to instantiate theorems: `<div>A<span>B</span>C</div>`. -/
def exDivTree : DomTree :=
  DomTree.mk (.element ⟨none, "html", "div", "html", "div"⟩ [])
    [DomTree.mk (.text "A") [],
     DomTree.mk (.element ⟨none, "html", "span", "html", "span"⟩ []) [DomTree.mk (.text "B") []],
     DomTree.mk (.text "C") []]

/-- A tree in which a Text node has a Text child, constructible with
`Node::new` plus `Node::append_child` (nothing stops a caller from appending
to a Text node). -/
def exTextChildTree : DomTree :=
  DomTree.mk (.text "A") [DomTree.mk (.text "B") []]
/-- The document `<DIV><p>a</p><P>b</P></DIV>` from the spec's example. -/
def exCaseDoc : DomDocument :=
  ⟨DomTree.mk .document
    [DomTree.mk (.element ⟨none, "html", "DIV", "html", "DIV"⟩ [])
      [DomTree.mk (.element ⟨none, "html", "p", "html", "p"⟩ []) [DomTree.mk (.text "a") []],
       DomTree.mk (.element ⟨none, "html", "P", "html", "P"⟩ []) [DomTree.mk (.text "b") []]]]⟩
/-- A small concrete store: node 0 a Document with one child 1, node 1 a
Comment attached to 0, node 2 a detached Element. -/
def exStore : Store :=
  ⟨[⟨.document, none, [1]⟩,
    ⟨.comment "c", some 0, []⟩,
    ⟨.element ⟨none, "html", "p", "html", "p"⟩ [], none, []⟩]⟩
/-- A store in which node 0 has the same child 1 twice, reached by two legal
`append_child` calls on fresh nodes. -/
def exDupStore : Store :=
  (((⟨[⟨.document, none, []⟩, ⟨.comment "c", none, []⟩]⟩ : Store).appendChild 0 1).appendChild 0 1)
/-- A store whose node 0 (Document) has children [1, 2], node 2 a Text
"hi" last child. -/
def exTextStore : Store :=
  ⟨[⟨.document, none, [1, 2]⟩,
    ⟨.comment "c", some 0, []⟩,
    ⟨.text "hi", some 0, []⟩]⟩

/-- A sink-reachable store: a root Document, a Text "A" appended through the
sink, then a Comment appended through the sink — children of 0 are [1, 2]
with node 1 = Text "A" and node 2 = Comment. -/
def exC4Store : Store :=
  let s1 := (⟨[⟨.document, none, []⟩]⟩ : Store).sinkAppend 0 (.appendText "A")
  let a := s1.newNode (.comment "x")
  a.1.sinkAppend 0 (.appendNode a.2)

/-- The operation sequence of the C1 counterexample: allocate two Documents
and a Comment, then append the Comment to both. -/
def exC1Ops : List TreeOp :=
  [.newNode .document, .newNode .document, .newNode (.comment "x"),
   .appendChild 0 2, .appendChild 1 2]

/-- An attach-once sequence used by the C1 witness. -/
def exC1WitnessOps : List TreeOp :=
  [.newNode .document, .newNode (.comment "x"), .appendChild 0 1]

/-- A mixed operation sequence used by the C10 witness, exercising every
operation kind on `exTextStore`. -/
def exC10Ops : List DomOp :=
  [.newNode (.comment "y"), .appendChild 0 3, .sinkAppend 0 (.appendText "A"),
   .sinkAppend 0 (.appendText "B"), .removeFromParent 1,
   .appendBeforeSibling 2 (.appendText "z"), .reparentChildren 0 3,
   .appendDoctypeToDocument 0 "html" "" "", .removeChild 0 2, .insertBefore 0 1 2]
@[simp] theorem modifyAt_nil (i : Nat) (f : NodeRec → NodeRec) :
    modifyAt [] i f = [] := rfl

@[simp] theorem modifyAt_cons_zero (x : NodeRec) (xs : List NodeRec) (f : NodeRec → NodeRec) :
    modifyAt (x :: xs) 0 f = f x :: xs := rfl

@[simp] theorem modifyAt_cons_succ (x : NodeRec) (xs : List NodeRec) (i : Nat)
    (f : NodeRec → NodeRec) :
    modifyAt (x :: xs) (i + 1) f = x :: modifyAt xs i f := rfl

@[simp] theorem length_modifyAt (l : List NodeRec) (i : Nat) (f : NodeRec → NodeRec) :
    (modifyAt l i f).length = l.length := by
  induction l generalizing i with
  | nil => rfl
  | cons x xs ih =>
    cases i with
    | zero => rfl
    | succ i => simp [modifyAt, ih]

theorem getElem?_modifyAt_ne (l : List NodeRec) (i j : Nat) (f : NodeRec → NodeRec)
    (h : j ≠ i) : (modifyAt l i f)[j]? = l[j]? := by
  induction l generalizing i j with
  | nil => rfl
  | cons x xs ih =>
    cases i with
    | zero =>
      cases j with
      | zero => exact absurd rfl h
      | succ j => simp [modifyAt]
    | succ i =>
      cases j with
      | zero => simp [modifyAt]
      | succ j =>
        simp only [modifyAt, List.getElem?_cons_succ]
        exact ih i j (fun hji => h (by omega))

theorem getElem?_modifyAt_self (l : List NodeRec) (i : Nat) (f : NodeRec → NodeRec) :
    (modifyAt l i f)[i]? = (l[i]?).map f := by
  induction l generalizing i with
  | nil => rfl
  | cons x xs ih =>
    cases i with
    | zero => simp [modifyAt]
    | succ i => simpa [modifyAt] using ih i
section AccessorLemmas

variable (s : Store)

@[simp] theorem numNodes_setParentOf (c : Nat) (p? : Option Nat) :
    (s.setParentOf c p?).numNodes = s.numNodes := by
  simp [Store.setParentOf, Store.numNodes]

@[simp] theorem numNodes_modifyChildrenOf (p : Nat) (f : List Nat → List Nat) :
    (s.modifyChildrenOf p f).numNodes = s.numNodes := by
  simp [Store.modifyChildrenOf, Store.numNodes]

@[simp] theorem numNodes_newNode (d : NodeData) :
    (s.newNode d).1.numNodes = s.numNodes + 1 := by
  simp [Store.newNode, Store.numNodes]

@[simp] theorem dataOf_setParentOf (c : Nat) (p? : Option Nat) (i : Nat) :
    (s.setParentOf c p?).dataOf i = s.dataOf i := by
  unfold Store.dataOf Store.setParentOf
  by_cases h : i = c
  · subst h; simp [getElem?_modifyAt_self]; cases s.recs[i]? <;> simp
  · simp [getElem?_modifyAt_ne _ _ _ _ h]

@[simp] theorem dataOf_modifyChildrenOf (p : Nat) (f : List Nat → List Nat) (i : Nat) :
    (s.modifyChildrenOf p f).dataOf i = s.dataOf i := by
  unfold Store.dataOf Store.modifyChildrenOf
  by_cases h : i = p
  · subst h; simp [getElem?_modifyAt_self]; cases s.recs[i]? <;> simp
  · simp [getElem?_modifyAt_ne _ _ _ _ h]

@[simp] theorem childrenOf_setParentOf (c : Nat) (p? : Option Nat) (q : Nat) :
    (s.setParentOf c p?).childrenOf q = s.childrenOf q := by
  unfold Store.childrenOf Store.setParentOf
  by_cases h : q = c
  · subst h; simp [getElem?_modifyAt_self]; cases s.recs[q]? <;> simp
  · simp [getElem?_modifyAt_ne _ _ _ _ h]

@[simp] theorem parentOf_modifyChildrenOf (p : Nat) (f : List Nat → List Nat) (q : Nat) :
    (s.modifyChildrenOf p f).parentOf q = s.parentOf q := by
  unfold Store.parentOf Store.modifyChildrenOf
  by_cases h : q = p
  · subst h; simp [getElem?_modifyAt_self]; cases s.recs[q]? <;> simp
  · simp [getElem?_modifyAt_ne _ _ _ _ h]

theorem exists_rec_of_lt {i : Nat} (h : i < s.numNodes) :
    ∃ r, s.recs[i]? = some r := by
  have h2 : i < s.recs.length := h
  exact ⟨s.recs[i], List.getElem?_eq_getElem h2⟩

theorem parentOf_setParentOf_self (c : Nat) (p? : Option Nat) (hc : c < s.numNodes) :
    (s.setParentOf c p?).parentOf c = p? := by
  rcases exists_rec_of_lt s hc with ⟨r, hr⟩
  unfold Store.parentOf Store.setParentOf
  simp [getElem?_modifyAt_self, hr]

theorem parentOf_setParentOf_ne (c : Nat) (p? : Option Nat) (q : Nat) (h : q ≠ c) :
    (s.setParentOf c p?).parentOf q = s.parentOf q := by
  unfold Store.parentOf Store.setParentOf
  simp [getElem?_modifyAt_ne _ _ _ _ h]

theorem childrenOf_modifyChildrenOf_self (p : Nat) (f : List Nat → List Nat)
    (hp : p < s.numNodes) :
    (s.modifyChildrenOf p f).childrenOf p = f (s.childrenOf p) := by
  rcases exists_rec_of_lt s hp with ⟨r, hr⟩
  unfold Store.childrenOf Store.modifyChildrenOf
  simp [getElem?_modifyAt_self, hr]

theorem childrenOf_modifyChildrenOf_ne (p : Nat) (f : List Nat → List Nat) (q : Nat)
    (h : q ≠ p) :
    (s.modifyChildrenOf p f).childrenOf q = s.childrenOf q := by
  unfold Store.childrenOf Store.modifyChildrenOf
  simp [getElem?_modifyAt_ne _ _ _ _ h]

theorem dataOf_newNode (d : NodeData) (i : Nat) :
    (s.newNode d).1.dataOf i = if i = s.numNodes then some d else s.dataOf i := by
  unfold Store.dataOf Store.newNode Store.numNodes
  by_cases h : i = s.recs.length
  · subst h; simp
  · rcases Nat.lt_or_ge i s.recs.length with hlt | hge
    · simp [h, List.getElem?_append_left hlt]
    · have h1 : s.recs.length ≤ i := hge
      have h2 : s.recs[i]? = none := by
        simp [List.getElem?_eq_none_iff]; omega
      have h3 : (s.recs ++ [⟨d, none, []⟩])[i]? = none := by
        simp [List.getElem?_eq_none_iff]; omega
      simp [h, h2, h3]

theorem parentOf_newNode (d : NodeData) (i : Nat) :
    (s.newNode d).1.parentOf i = s.parentOf i := by
  unfold Store.parentOf Store.newNode
  rcases Nat.lt_or_ge i s.recs.length with hlt | hge
  · simp [List.getElem?_append_left hlt]
  · have h2 : s.recs[i]? = none := by
      simp [List.getElem?_eq_none_iff]; omega
    by_cases h : i = s.recs.length
    · rw [h] at h2 ⊢
      rw [List.getElem?_concat_length, h2]
    · have h3 : (s.recs ++ [(⟨d, none, []⟩ : NodeRec)])[i]? = none := by
        simp only [List.getElem?_eq_none_iff, List.length_append, List.length_cons,
          List.length_nil]
        omega
      rw [h2, h3]

theorem childrenOf_newNode (d : NodeData) (i : Nat) :
    (s.newNode d).1.childrenOf i = s.childrenOf i := by
  unfold Store.childrenOf Store.newNode
  rcases Nat.lt_or_ge i s.recs.length with hlt | hge
  · simp [List.getElem?_append_left hlt]
  · have h2 : s.recs[i]? = none := by
      simp [List.getElem?_eq_none_iff]; omega
    by_cases h : i = s.recs.length
    · rw [h] at h2 ⊢
      rw [List.getElem?_concat_length, h2]
    · have h3 : (s.recs ++ [(⟨d, none, []⟩ : NodeRec)])[i]? = none := by
        simp only [List.getElem?_eq_none_iff, List.length_append, List.length_cons,
          List.length_nil]
        omega
      rw [h2, h3]

theorem dataOf_lt_numNodes {i : Nat} {d : NodeData} (h : s.dataOf i = some d) :
    i < s.numNodes := by
  unfold Store.dataOf at h
  by_contra hge
  have : s.recs[i]? = none := by
    simp [List.getElem?_eq_none_iff, Store.numNodes] at *; omega
  simp [this] at h

end AccessorLemmas

section OpLemmas

variable (s : Store)

@[simp] theorem numNodes_appendChild (p c : Nat) :
    (s.appendChild p c).numNodes = s.numNodes := by
  simp [Store.appendChild]

theorem parentOf_appendChild_child (p c : Nat) (hc : c < s.numNodes) :
    (s.appendChild p c).parentOf c = some p := by
  unfold Store.appendChild
  rw [parentOf_modifyChildrenOf, parentOf_setParentOf_self _ _ _ hc]

theorem parentOf_appendChild_ne (p c q : Nat) (h : q ≠ c) :
    (s.appendChild p c).parentOf q = s.parentOf q := by
  unfold Store.appendChild
  rw [parentOf_modifyChildrenOf, parentOf_setParentOf_ne _ _ _ _ h]

theorem childrenOf_appendChild_parent (p c : Nat) (hp : p < s.numNodes) :
    (s.appendChild p c).childrenOf p = s.childrenOf p ++ [c] := by
  unfold Store.appendChild
  rw [childrenOf_modifyChildrenOf_self _ _ _ (by simpa using hp), childrenOf_setParentOf]

theorem childrenOf_appendChild_ne (p c q : Nat) (h : q ≠ p) :
    (s.appendChild p c).childrenOf q = s.childrenOf q := by
  unfold Store.appendChild
  rw [childrenOf_modifyChildrenOf_ne _ _ _ _ h, childrenOf_setParentOf]

@[simp] theorem dataOf_appendChild (p c i : Nat) :
    (s.appendChild p c).dataOf i = s.dataOf i := by
  simp [Store.appendChild]

@[simp] theorem numNodes_insertBefore (p c r : Nat) :
    (s.insertBefore p c r).numNodes = s.numNodes := by
  simp [Store.insertBefore]

theorem parentOf_insertBefore_child (p c r : Nat) (hc : c < s.numNodes) :
    (s.insertBefore p c r).parentOf c = some p := by
  unfold Store.insertBefore
  rw [parentOf_modifyChildrenOf, parentOf_setParentOf_self _ _ _ hc]

theorem parentOf_insertBefore_ne (p c r q : Nat) (h : q ≠ c) :
    (s.insertBefore p c r).parentOf q = s.parentOf q := by
  unfold Store.insertBefore
  rw [parentOf_modifyChildrenOf, parentOf_setParentOf_ne _ _ _ _ h]

theorem childrenOf_insertBefore_parent (p c r : Nat) (hp : p < s.numNodes) :
    (s.insertBefore p c r).childrenOf p = insertBeforeList (s.childrenOf p) c r := by
  unfold Store.insertBefore
  rw [childrenOf_modifyChildrenOf_self _ _ _ (by simpa using hp), childrenOf_setParentOf]

theorem childrenOf_insertBefore_ne (p c r q : Nat) (h : q ≠ p) :
    (s.insertBefore p c r).childrenOf q = s.childrenOf q := by
  unfold Store.insertBefore
  rw [childrenOf_modifyChildrenOf_ne _ _ _ _ h, childrenOf_setParentOf]

@[simp] theorem dataOf_insertBefore (p c r i : Nat) :
    (s.insertBefore p c r).dataOf i = s.dataOf i := by
  simp [Store.insertBefore]

theorem mem_insertBeforeList {d : Nat} (ch : List Nat) (c r : Nat) :
    d ∈ insertBeforeList ch c r ↔ d ∈ ch ∨ d = c := by
  induction ch with
  | nil => simp [insertBeforeList]
  | cons x xs ih =>
    unfold insertBeforeList
    by_cases hx : x = r
    · rw [if_pos hx]
      simp only [List.mem_cons]
      tauto
    · rw [if_neg hx]
      simp only [List.mem_cons, ih]
      tauto

theorem insertBeforeList_of_not_mem (ch : List Nat) (c r : Nat) (h : r ∉ ch) :
    insertBeforeList ch c r = ch ++ [c] := by
  induction ch with
  | nil => rfl
  | cons x xs ih =>
    rw [List.mem_cons, not_or] at h
    unfold insertBeforeList
    rw [if_neg (fun hh : x = r => h.1 hh.symm), ih h.2]
    rfl

theorem insertBeforeList_of_mem (ch : List Nat) (c r : Nat) (h : r ∈ ch) :
    ∃ pre post, ch = pre ++ r :: post ∧ r ∉ pre ∧
      insertBeforeList ch c r = pre ++ c :: r :: post := by
  induction ch with
  | nil => cases h
  | cons x xs ih =>
    by_cases hx : x = r
    · subst hx
      exact ⟨[], xs, rfl, by simp, by simp [insertBeforeList]⟩
    · have hr : r ∈ xs := by
        rcases List.mem_cons.mp h with h1 | h1
        · exact absurd h1.symm hx
        · exact h1
      rcases ih hr with ⟨pre, post, hch, hpre, hins⟩
      refine ⟨x :: pre, post, by simp [hch], ?_, ?_⟩
      · intro hmem
        rcases List.mem_cons.mp hmem with h1 | h1
        · exact hx h1.symm
        · exact hpre h1
      · unfold insertBeforeList
        rw [if_neg hx, hins]
        rfl

end OpLemmas
@[simp] theorem newNode_snd (s : Store) (d : NodeData) :
    (s.newNode d).2 = s.numNodes := rfl

theorem isTextNode_eq_false (s : Store) (i : Nat) (h : s.isTextNode i = false) :
    ∀ c, s.dataOf i ≠ some (.text c) := by
  intro c hc
  unfold Store.isTextNode at h
  rw [hc] at h
  simp at h

theorem isTextNode_eq_true (s : Store) (i : Nat) (h : s.isTextNode i = true) :
    ∃ c, s.dataOf i = some (.text c) := by
  unfold Store.isTextNode at h
  rcases hd : s.dataOf i with _ | nd
  all_goals rw [hd] at h
  · simp at h
  · rcases nd with _ | ⟨nm, ats⟩ | c | c | ⟨n1, n2, n3⟩
    all_goals simp at h
    exact ⟨c, rfl⟩

theorem sinkAppendText_merge (s : Store) (p : Nat) (t : String) (lastId : Nat)
    (contents : String)
    (hl : (s.childrenOf p).getLast? = some lastId)
    (hd : s.dataOf lastId = some (.text contents)) :
    s.sinkAppendText p t =
      ((s.modifyChildrenOf p (fun ch => ch.dropLast)).newNode
          (NodeData.text (contents ++ t))).1.appendChild p
        ((s.modifyChildrenOf p (fun ch => ch.dropLast)).newNode
          (NodeData.text (contents ++ t))).2 := by
  unfold Store.sinkAppendText
  rw [hl]
  simp only [hd]

theorem sinkAppendText_push (s : Store) (p : Nat) (t : String)
    (h : ∀ lastId, (s.childrenOf p).getLast? = some lastId → s.isTextNode lastId = false) :
    s.sinkAppendText p t =
      (s.newNode (NodeData.text t)).1.appendChild p (s.newNode (NodeData.text t)).2 := by
  unfold Store.sinkAppendText
  rcases hl : (s.childrenOf p).getLast? with _ | lastId
  · rfl
  · have hnt := h lastId hl
    rcases hd : s.dataOf lastId with _ | nd
    · simp only [hd]
    · rcases nd with _ | ⟨nm, ats⟩ | c | c | ⟨n1, n2, n3⟩
      · simp only [hd]
      · simp only [hd]
      · exfalso
        unfold Store.isTextNode at hnt
        rw [hd] at hnt
        simp at hnt
      · simp only [hd]
      · simp only [hd]

theorem filter_ne_eq_erase (l : List Nat) (c : Nat) (h : l.count c ≤ 1) :
    l.filter (fun n => n ≠ c) = l.erase c := by
  induction l with
  | nil => rfl
  | cons x xs ih =>
    by_cases hx : x = c
    · subst hx
      have hxs : x ∉ xs := by
        rw [List.count_cons_self] at h
        exact List.count_eq_zero.mp (by omega)
      have hfc : (x :: xs).filter (fun n => n ≠ x) = xs.filter (fun n => n ≠ x) := by
        simp [List.filter_cons]
      have hself : xs.filter (fun n => n ≠ x) = xs := by
        rw [List.filter_eq_self]
        intro a ha
        have hax : ¬ a = x := fun h2 => hxs (h2 ▸ ha)
        simp [hax]
      rw [List.erase_cons_head, hfc, hself]
    · have hcount : xs.count c ≤ 1 := by
        rw [List.count_cons_of_ne (fun hcx => hx hcx.symm)] at h
        exact h
      have hfc : (x :: xs).filter (fun n => n ≠ c) = x :: xs.filter (fun n => n ≠ c) := by
        simp [List.filter_cons, hx]
      rw [hfc, List.erase_cons_tail (by simp [hx]), ih hcount]
@[simp] theorem concatAll_nil : concatAll [] = "" := rfl

@[simp] theorem concatAll_cons (a : String) (l : List String) :
    concatAll (a :: l) = a ++ concatAll l := rfl

theorem concatAll_append (l1 l2 : List String) :
    concatAll (l1 ++ l2) = concatAll l1 ++ concatAll l2 := by
  induction l1 with
  | nil => simp
  | cons a l ih => simp [ih, String.append_assoc]
mutual

theorem collectText_eq : ∀ (t : DomTree), t.textLeaves = true → ∀ buffer : String,
    t.collectText buffer = buffer ++ concatAll t.textsOf
  | .mk (.text c) cs, h, buffer => by
    have hcs : cs = [] := by
      simpa [DomTree.textLeaves, List.isEmpty_iff] using h
    subst hcs
    simp [DomTree.collectText, DomTree.textsOf, DomTree.textsOfList]
  | .mk .document cs, h, buffer => by
    have h2 : DomTree.textLeavesList cs = true := by
      simpa [DomTree.textLeaves] using h
    simp only [DomTree.collectText, DomTree.textsOf]
    exact collectTextList_eq cs h2 buffer
  | .mk (.element nm at_) cs, h, buffer => by
    have h2 : DomTree.textLeavesList cs = true := by
      simpa [DomTree.textLeaves] using h
    simp only [DomTree.collectText, DomTree.textsOf]
    exact collectTextList_eq cs h2 buffer
  | .mk (.comment c) cs, h, buffer => by
    have h2 : DomTree.textLeavesList cs = true := by
      simpa [DomTree.textLeaves] using h
    simp only [DomTree.collectText, DomTree.textsOf]
    exact collectTextList_eq cs h2 buffer
  | .mk (.doctype n p q) cs, h, buffer => by
    have h2 : DomTree.textLeavesList cs = true := by
      simpa [DomTree.textLeaves] using h
    simp only [DomTree.collectText, DomTree.textsOf]
    exact collectTextList_eq cs h2 buffer

theorem collectTextList_eq : ∀ (ts : List DomTree), DomTree.textLeavesList ts = true →
    ∀ buffer : String,
    DomTree.collectTextList ts buffer = buffer ++ concatAll (DomTree.textsOfList ts)
  | [], _, buffer => by
    simp [DomTree.collectTextList, DomTree.textsOfList]
  | t :: ts, h, buffer => by
    have h1 : t.textLeaves = true := by
      have := h
      simp only [DomTree.textLeavesList, Bool.and_eq_true] at this
      exact this.1
    have h2 : DomTree.textLeavesList ts = true := by
      have := h
      simp only [DomTree.textLeavesList, Bool.and_eq_true] at this
      exact this.2
    simp only [DomTree.collectTextList, DomTree.textsOfList]
    rw [collectText_eq t h1 buffer, collectTextList_eq ts h2 _]
    rw [concatAll_append, String.append_assoc]

end

mutual

theorem collectElements_eq : ∀ (t : DomTree) (tag : String),
    t.collectElements tag = t.preorder.filter (fun n => n.matchesTag tag)
  | .mk d cs, tag => by
    simp only [DomTree.collectElements, DomTree.preorder, List.filter_cons]
    rw [collectElementsList_eq cs tag]
    by_cases h : (DomTree.mk d cs).matchesTag tag <;> simp [h]

theorem collectElementsList_eq : ∀ (ts : List DomTree) (tag : String),
    DomTree.collectElementsList ts tag =
      (DomTree.preorderList ts).filter (fun n => n.matchesTag tag)
  | [], tag => rfl
  | t :: ts, tag => by
    simp only [DomTree.collectElementsList, DomTree.preorderList, List.filter_append]
    rw [collectElements_eq t tag, collectElementsList_eq ts tag]

end
/-- C7 counterexample: on a Text node that itself has a Text child,
`get_text_content` returns only the node's own contents ("A"): the Text
branch of `collect_text` never visits children, so the Text descendant "B"
is skipped, not concatenated as the claim requires. -/
theorem c7_counterexample :
    exTextChildTree.getTextContent = "A" ∧
    concatAll exTextChildTree.textsOf = "AB" ∧
    exTextChildTree.getTextContent ≠ concatAll exTextChildTree.textsOf := by
  refine ⟨by decide, by decide, by decide⟩

/-- C7 (amended): on every tree whose Text nodes are leaves — which is every
tree the construction layer produces, since Text nodes are allocated
childless and only ever appended to, never into — `get_text_content` is the
eager concatenation of the contents of all Text descendants (the node
itself included) in document order, depth-first, left to right; Element,
Comment, Doctype and Document markers contribute nothing. -/
theorem c7_getTextContent (t : DomTree) (h : t.textLeaves = true) :
    t.getTextContent = concatAll t.textsOf := by
  rw [DomTree.getTextContent, collectText_eq t h ""]
  simp

/-- C7 witness: the amended theorem evaluated on `<div>A<span>B</span>C</div>`,
whose text content is "ABC". -/
theorem c7_witness :
    exDivTree.textLeaves = true ∧
    exDivTree.getTextContent = concatAll exDivTree.textsOf ∧
    exDivTree.getTextContent = "ABC" := by
  refine ⟨by decide, c7_getTextContent exDivTree (by decide), by decide⟩

/-- C8: `get_elements_by_tag_name` returns exactly the nodes of the
document-order (depth-first pre-order) traversal that are Elements whose
local name equals the tag up to ASCII case; the result is a fresh list built
by the traversal. -/
theorem c8_getElementsByTagName (d : DomDocument) (tag : String) :
    d.getElementsByTagName tag = d.root.preorder.filter (fun n => n.matchesTag tag) ∧
    ∀ n ∈ d.getElementsByTagName tag,
      ∃ qname attrs, n.data = NodeData.element qname attrs ∧
        eqIgnoreAsciiCase qname.localName tag = true := by
  constructor
  · exact collectElements_eq d.root tag
  · intro n hn
    unfold DomDocument.getElementsByTagName at hn
    rw [collectElements_eq d.root tag] at hn
    have hm := (List.mem_filter.mp hn).2
    unfold DomTree.matchesTag at hm
    rcases hdata : n.data with _ | ⟨qname, attrs⟩ | c | c | ⟨nm, pid, sid⟩ <;>
      rw [hdata] at hm
    case element =>
      simp only [NodeData.elementName] at hm
      exact ⟨qname, attrs, rfl, hm⟩
    all_goals simp [NodeData.elementName] at hm
/-- C8 witness: the theorem evaluated on `<DIV><p>a</p><P>b</P></DIV>` with
tag "p"; both paragraph elements are returned, in source order, regardless
of tag case. -/
theorem c8_witness :
    (exCaseDoc.getElementsByTagName "p" =
        exCaseDoc.root.preorder.filter (fun n => n.matchesTag "p") ∧
      ∀ n ∈ exCaseDoc.getElementsByTagName "p",
        ∃ qname attrs, n.data = NodeData.element qname attrs ∧
          eqIgnoreAsciiCase qname.localName "p" = true) ∧
    (exCaseDoc.getElementsByTagName "p").map (fun n => n.data.elementName) =
      [some "p", some "P"] := by
  refine ⟨c8_getElementsByTagName exCaseDoc "p", by decide⟩
/-- C9: `insert_before` with a reference that is not among the parent's
children does not lose data: the child still gets its parent back-reference
and is appended at the end of the children (and the operation is total — the
embedding of the Rust code has no panicking branch here). -/
theorem c9_insertBefore_fallback (s : Store) (p c r : Nat)
    (hp : p < s.numNodes) (hc : c < s.numNodes)
    (hr : r ∉ s.childrenOf p) :
    (s.insertBefore p c r).childrenOf p = s.childrenOf p ++ [c] ∧
    (s.insertBefore p c r).parentOf c = some p := by
  refine ⟨?_, parentOf_insertBefore_child s p c r hc⟩
  rw [childrenOf_insertBefore_parent s p c r hp]
  exact insertBeforeList_of_not_mem _ _ _ hr

/-- C9 witness: inserting detached node 2 before the absent reference 5
under node 0 appends it at the end and reparents it. -/
theorem c9_witness :
    (0 < exStore.numNodes ∧ 2 < exStore.numNodes ∧ 5 ∉ exStore.childrenOf 0) ∧
    ((exStore.insertBefore 0 2 5).childrenOf 0 = exStore.childrenOf 0 ++ [2] ∧
      (exStore.insertBefore 0 2 5).parentOf 2 = some 0) :=
  ⟨⟨by decide, by decide, by decide⟩,
    c9_insertBefore_fallback exStore 0 2 5 (by decide) (by decide) (by decide)⟩
/-- C6 counterexample: `remove_child` is `Vec::retain`, which removes every
occurrence of the child, not the first one: on a parent whose children are
[1, 1], the result is [], while removing only the first occurrence would
leave [1]. -/
theorem c6_counterexample :
    exDupStore.childrenOf 0 = [1, 1] ∧
    (exDupStore.removeChild 0 1).childrenOf 0 = [] ∧
    (exDupStore.removeChild 0 1).childrenOf 0 ≠ (exDupStore.childrenOf 0).erase 1 := by
  refine ⟨by decide, by decide, by decide⟩

/-- C6 (amended): `remove_child` removes every occurrence of the child from
the parent's children, compared by identity — which is the unique first
occurrence whenever the tree invariants (no duplicate containment) hold, in
which case it agrees with `List.erase` — touches no other child list, and
leaves every node's parent back-reference (the removed child's included)
unaltered. -/
theorem c6_removeChild (s : Store) (p c : Nat) (hp : p < s.numNodes) :
    (s.removeChild p c).childrenOf p = (s.childrenOf p).filter (fun n => n ≠ c) ∧
    (∀ q, q ≠ p → (s.removeChild p c).childrenOf q = s.childrenOf q) ∧
    (∀ d, (s.removeChild p c).parentOf d = s.parentOf d) ∧
    ((s.childrenOf p).count c ≤ 1 →
      (s.removeChild p c).childrenOf p = (s.childrenOf p).erase c) := by
  have h1 : (s.removeChild p c).childrenOf p = (s.childrenOf p).filter (fun n => n ≠ c) :=
    childrenOf_modifyChildrenOf_self s p _ hp
  refine ⟨h1, ?_, ?_, ?_⟩
  · intro q hq
    exact childrenOf_modifyChildrenOf_ne s p _ q hq
  · intro d
    exact parentOf_modifyChildrenOf s p _ d
  · intro hcount
    rw [h1]
    exact filter_ne_eq_erase _ _ hcount

/-- C6 witness: the amended theorem on the store whose node 0 has children
[1]; removing child 1 empties the list, agrees with `erase`, and leaves the
stale back-reference of node 1 pointing at node 0. -/
theorem c6_witness :
    (0 < exStore.numNodes) ∧
    ((exStore.removeChild 0 1).childrenOf 0 = (exStore.childrenOf 0).filter (fun n => n ≠ 1) ∧
      (∀ q, q ≠ 0 → (exStore.removeChild 0 1).childrenOf q = exStore.childrenOf q) ∧
      (∀ d, (exStore.removeChild 0 1).parentOf d = exStore.parentOf d) ∧
      ((exStore.childrenOf 0).count 1 ≤ 1 →
        (exStore.removeChild 0 1).childrenOf 0 = (exStore.childrenOf 0).erase 1)) :=
  ⟨by decide, c6_removeChild exStore 0 1 (by decide)⟩
/-- C5: when the sink text append merges with an existing last Text child,
the merged node is a fresh allocation (a distinct identity) holding the
concatenated contents, it replaces the old last child in the parent's
children, and the old node's data is untouched, so any outstanding handle to
the old node still reads its original contents. -/
theorem c5_merge_fresh (s : Store) (p oldId : Nat) (init : List Nat) (oldC t : String)
    (hp : p < s.numNodes)
    (hch : s.childrenOf p = init ++ [oldId])
    (hdata : s.dataOf oldId = some (.text oldC)) :
    (s.sinkAppendText p t).childrenOf p = init ++ [s.numNodes] ∧
    (s.sinkAppendText p t).dataOf s.numNodes = some (.text (oldC ++ t)) ∧
    (s.sinkAppendText p t).dataOf oldId = some (.text oldC) ∧
    s.numNodes ≠ oldId := by
  have hold : oldId < s.numNodes := dataOf_lt_numNodes s hdata
  have hlast : (s.childrenOf p).getLast? = some oldId := by
    rw [hch]
    exact List.getLast?_concat _
  rw [sinkAppendText_merge s p t oldId oldC hlast hdata]
  set s1 := s.modifyChildrenOf p (fun ch => ch.dropLast) with hs1
  have hn1 : s1.numNodes = s.numNodes := numNodes_modifyChildrenOf s p _
  set s2 := (s1.newNode (NodeData.text (oldC ++ t))).1 with hs2
  have hfresh : (s1.newNode (NodeData.text (oldC ++ t))).2 = s.numNodes := by
    rw [newNode_snd, hn1]
  rw [hfresh]
  have hn2 : s2.numNodes = s.numNodes + 1 := by rw [hs2, numNodes_newNode, hn1]
  have hch1 : s1.childrenOf p = init := by
    rw [hs1, childrenOf_modifyChildrenOf_self s p _ hp, hch]
    exact List.dropLast_concat
  refine ⟨?_, ?_, ?_, by omega⟩
  · rw [childrenOf_appendChild_parent s2 p _ (by omega)]
    rw [hs2, childrenOf_newNode, hch1]
  · rw [dataOf_appendChild, hs2, dataOf_newNode, hn1, if_pos rfl]
  · rw [dataOf_appendChild, hs2, dataOf_newNode, hn1,
      if_neg (show ¬ oldId = s.numNodes by omega), hs1, dataOf_modifyChildrenOf]
    exact hdata

/-- C5 witness: appending text " there" under node 0 of `exTextStore` pops
the Text node 2, allocates the fresh node 3 holding "hi there", and leaves
node 2 still reading "hi". -/
theorem c5_witness :
    (0 < exTextStore.numNodes ∧ exTextStore.childrenOf 0 = [1] ++ [2] ∧
      exTextStore.dataOf 2 = some (.text "hi")) ∧
    ((exTextStore.sinkAppendText 0 " there").childrenOf 0 = [1] ++ [exTextStore.numNodes] ∧
      (exTextStore.sinkAppendText 0 " there").dataOf exTextStore.numNodes =
        some (.text ("hi" ++ " there")) ∧
      (exTextStore.sinkAppendText 0 " there").dataOf 2 = some (.text "hi") ∧
      exTextStore.numNodes ≠ 2) :=
  ⟨⟨by decide, by decide, by decide⟩,
    c5_merge_fresh exTextStore 0 2 [1] "hi" " there" (by decide) (by decide) (by decide)⟩


/-- C3: `append_before_sibling` fails fatally — the `.expect` aborts the
parse, modelled as `none` — when the sibling's parent back-reference does
not resolve; on an attached sibling (back-reference resolving to a parent
whose children contain it) the given node, or a fresh Text node holding the
given text, is inserted immediately before the sibling's first occurrence
among that parent's children. -/
theorem c3_appendBeforeSibling (s : Store) (sib : Nat) (x : NodeOrText) :
    (s.parentOf sib = none → s.appendBeforeSibling sib x = none) ∧
    (∀ p, s.parentOf sib = some p → p < s.numNodes → sib ∈ s.childrenOf p →
      ∃ s' pre post, s.appendBeforeSibling sib x = some s' ∧
        s.childrenOf p = pre ++ sib :: post ∧ sib ∉ pre ∧
        s'.childrenOf p = pre ++ x.insertedId s :: sib :: post) := by
  constructor
  · intro hnone
    cases x with
    | appendNode n =>
      unfold Store.appendBeforeSibling
      rw [hnone]
    | appendText t =>
      unfold Store.appendBeforeSibling
      rw [hnone]
  · intro p hp hplt hmem
    rcases insertBeforeList_of_mem (s.childrenOf p) (x.insertedId s) sib hmem with
      ⟨pre, post, hdecomp, hpre, hins⟩
    cases x with
    | appendNode n =>
      refine ⟨s.insertBefore p n sib, pre, post, ?_, hdecomp, hpre, ?_⟩
      · unfold Store.appendBeforeSibling
        rw [hp]
      · rw [childrenOf_insertBefore_parent s p n sib hplt]
        exact hins
    | appendText t =>
      refine ⟨(s.newNode (.text t)).1.insertBefore p (s.newNode (.text t)).2 sib,
        pre, post, ?_, hdecomp, hpre, ?_⟩
      · unfold Store.appendBeforeSibling
        rw [hp]
      · have hplt2 : p < (s.newNode (.text t)).1.numNodes := by
          rw [numNodes_newNode]; omega
        rw [childrenOf_insertBefore_parent _ p _ sib hplt2, newNode_snd, childrenOf_newNode]
        exact hins

/-- C3 witness: on `exStore`, node 2 is unattached so the operation aborts;
node 1 is attached under node 0, so inserting node 2 before it succeeds and
lands immediately before it. -/
theorem c3_witness :
    (exStore.parentOf 2 = none ∧ exStore.appendBeforeSibling 2 (.appendNode 1) = none) ∧
    (exStore.parentOf 1 = some 0 ∧
      ∃ s' pre post, exStore.appendBeforeSibling 1 (.appendNode 2) = some s' ∧
        exStore.childrenOf 0 = pre ++ 1 :: post ∧ 1 ∉ pre ∧
        s'.childrenOf 0 =
          pre ++ (NodeOrText.appendNode 2).insertedId exStore :: 1 :: post) :=
  ⟨⟨by decide, (c3_appendBeforeSibling exStore 2 (.appendNode 1)).1 (by decide)⟩,
   ⟨by decide,
    (c3_appendBeforeSibling exStore 1 (.appendNode 2)).2 0 (by decide) (by decide) (by decide)⟩⟩

/-- C4 counterexample: in the sink-reachable store `exC4Store` (children of
the root: Text "A" then a Comment), inserting text "B" before the Comment
does not merge with the preceding Text node — a fresh Text node 3 holding
just "B" lands between them, leaving two adjacent Text children, which the
claimed append-style coalescing would never produce. -/
theorem c4_counterexample :
    (exC4Store.appendBeforeSibling 2 (.appendText "B")).map (fun s' => s'.childrenOf 0) =
      some [1, 3, 2] ∧
    (exC4Store.appendBeforeSibling 2 (.appendText "B")).map (fun s' => s'.dataOf 3) =
      some (some (.text "B")) ∧
    (exC4Store.appendBeforeSibling 2 (.appendText "B")).map (fun s' => s'.dataOf 1) =
      some (some (.text "A")) ∧
    (exC4Store.appendBeforeSibling 2 (.appendText "B")).map
      (fun s' => consecTexts s' (s'.childrenOf 0)) = some true := by
  refine ⟨by decide, by decide, by decide, by decide⟩

/-- C4 (amended): on an attached sibling, `append_before_sibling` with a
text argument always allocates a fresh Text node holding exactly the given
text and inserts it immediately before the sibling, without coalescing with
a preceding Text node (unlike `append`, whose merge logic this path does not
share); every previously allocated node's data — a neighbouring Text node's
included — is unchanged. -/
theorem c4_appendBeforeSibling_text (s : Store) (sib : Nat) (t : String) (p : Nat)
    (hps : s.parentOf sib = some p) (hp : p < s.numNodes) (hsib : sib ∈ s.childrenOf p) :
    ∃ s' pre post, s.appendBeforeSibling sib (.appendText t) = some s' ∧
      s.childrenOf p = pre ++ sib :: post ∧ sib ∉ pre ∧
      s'.childrenOf p = pre ++ s.numNodes :: sib :: post ∧
      s'.dataOf s.numNodes = some (.text t) ∧
      ∀ i, i < s.numNodes → s'.dataOf i = s.dataOf i := by
  rcases insertBeforeList_of_mem (s.childrenOf p) s.numNodes sib hsib with
    ⟨pre, post, hdecomp, hpre, hins⟩
  refine ⟨(s.newNode (.text t)).1.insertBefore p (s.newNode (.text t)).2 sib,
    pre, post, ?_, hdecomp, hpre, ?_, ?_, ?_⟩
  · unfold Store.appendBeforeSibling
    rw [hps]
  · have hplt2 : p < (s.newNode (.text t)).1.numNodes := by
      rw [numNodes_newNode]; omega
    rw [childrenOf_insertBefore_parent _ p _ sib hplt2, newNode_snd, childrenOf_newNode]
    exact hins
  · rw [newNode_snd, dataOf_insertBefore, dataOf_newNode, if_pos rfl]
  · intro i hi
    rw [dataOf_insertBefore, dataOf_newNode, if_neg (show ¬ i = s.numNodes by omega)]

/-- C4 witness: the amended theorem evaluated on `exC4Store` at sibling 2
with text "B". -/
theorem c4_witness :
    (exC4Store.parentOf 2 = some 0 ∧ 0 < exC4Store.numNodes ∧ 2 ∈ exC4Store.childrenOf 0) ∧
    (∃ s' pre post, exC4Store.appendBeforeSibling 2 (.appendText "B") = some s' ∧
      exC4Store.childrenOf 0 = pre ++ 2 :: post ∧ 2 ∉ pre ∧
      s'.childrenOf 0 = pre ++ exC4Store.numNodes :: 2 :: post ∧
      s'.dataOf exC4Store.numNodes = some (.text "B") ∧
      ∀ i, i < exC4Store.numNodes → s'.dataOf i = exC4Store.dataOf i) :=
  ⟨⟨by decide, by decide, by decide⟩,
    c4_appendBeforeSibling_text exC4Store 2 "B" 0 (by decide) (by decide) (by decide)⟩


theorem boundedB_spec (s : Store) (h : s.boundedB = true) :
    ∀ q c, c ∈ s.childrenOf q → c < s.numNodes := by
  intro q c hc
  unfold Store.childrenOf at hc
  rcases hq : s.recs[q]? with _ | r
  · rw [hq] at hc
    have hc2 : c ∈ ([] : List Nat) := hc
    cases hc2
  · rw [hq] at hc
    have hc2 : c ∈ r.children := hc
    have hr : r ∈ s.recs := List.getElem?_mem hq
    unfold Store.boundedB at h
    rw [List.all_eq_true] at h
    have h2 := h r hr
    rw [List.all_eq_true] at h2
    have h3 := h2 c hc2
    simpa using h3

theorem isTextNode_congr (s s' : Store) (i : Nat) (h : s'.dataOf i = s.dataOf i) :
    s'.isTextNode i = s.isTextNode i := by
  unfold Store.isTextNode
  rw [h]

theorem consecTexts_congr (s s' : Store) (l : List Nat)
    (h : ∀ i ∈ l, s'.isTextNode i = s.isTextNode i) :
    consecTexts s' l = consecTexts s l := by
  induction l with
  | nil => rfl
  | cons a tl ih =>
    cases tl with
    | nil => rfl
    | cons b rest =>
      have ih2 := ih (fun i hi => h i (List.mem_cons_of_mem a hi))
      unfold consecTexts
      rw [h a (by simp), h b (by simp), ih2]

theorem consecTexts_concat (s : Store) (ch : List Nat) (n : Nat)
    (hch : consecTexts s ch = false)
    (hlast : ∀ lastId, ch.getLast? = some lastId →
      (s.isTextNode lastId && s.isTextNode n) = false) :
    consecTexts s (ch ++ [n]) = false := by
  induction ch with
  | nil => rfl
  | cons a tl ih =>
    cases tl with
    | nil =>
      have h2 := hlast a (by simp)
      simp [consecTexts, h2]
    | cons b rest =>
      unfold consecTexts at hch
      rw [Bool.or_eq_false_iff] at hch
      have ih2 := ih hch.2 (fun lastId hl => hlast lastId (by
        rw [List.getLast?_cons_cons]
        exact hl))
      have ih3 : consecTexts s (b :: (rest ++ [n])) = false := ih2
      show ((s.isTextNode a && s.isTextNode b) || consecTexts s (b :: (rest ++ [n]))) = false
      rw [hch.1, ih3]
      rfl

theorem consecTexts_dropLast (s : Store) (ch : List Nat)
    (hch : consecTexts s ch = false) :
    consecTexts s ch.dropLast = false := by
  induction ch with
  | nil => rfl
  | cons a tl ih =>
    cases tl with
    | nil => rfl
    | cons b rest =>
      unfold consecTexts at hch
      rw [Bool.or_eq_false_iff] at hch
      have ih2 := ih hch.2
      cases rest with
      | nil => rfl
      | cons c2 rest2 =>
        have ih3 : consecTexts s (b :: (c2 :: rest2).dropLast) = false := ih2
        show ((s.isTextNode a && s.isTextNode b) ||
          consecTexts s (b :: (c2 :: rest2).dropLast)) = false
        rw [hch.1, ih3]
        rfl

theorem consec_last_pair (s : Store) (ch : List Nat) (lastId x : Nat)
    (hch : consecTexts s ch = false)
    (hl : ch.getLast? = some lastId)
    (hx : ch.dropLast.getLast? = some x) :
    (s.isTextNode x && s.isTextNode lastId) = false := by
  induction ch with
  | nil => simp at hx
  | cons a tl ih =>
    cases tl with
    | nil => simp at hx
    | cons b rest =>
      cases rest with
      | nil =>
        have hb : b = lastId := by simpa using hl
        have ha : a = x := by simpa using hx
        subst hb
        subst ha
        unfold consecTexts at hch
        rw [Bool.or_eq_false_iff] at hch
        exact hch.1
      | cons c2 rest2 =>
        unfold consecTexts at hch
        rw [Bool.or_eq_false_iff] at hch
        have hl2 : (b :: c2 :: rest2).getLast? = some lastId := by
          rw [← List.getLast?_cons_cons]
          exact hl
        have hx2 : (b :: c2 :: rest2).dropLast.getLast? = some x := by
          have hdl : (a :: b :: c2 :: rest2).dropLast = a :: b :: (c2 :: rest2).dropLast := rfl
          rw [hdl, List.getLast?_cons_cons] at hx
          exact hx
        exact ih hch.2 hl2 hx2

theorem push_cond_of_not_text (s : Store) (p : Nat)
    (htext : ¬ ∃ lastId contents, (s.childrenOf p).getLast? = some lastId ∧
      s.dataOf lastId = some (.text contents)) :
    ∀ lastId, (s.childrenOf p).getLast? = some lastId → s.isTextNode lastId = false := by
  intro lastId hl
  cases hTN : s.isTextNode lastId with
  | false => rfl
  | true =>
    rcases isTextNode_eq_true s lastId hTN with ⟨c, hc⟩
    exact absurd ⟨lastId, c, hl, hc⟩ htext

theorem dataOf_sinkAppendText (s : Store) (p : Nat) (t : String) (i : Nat)
    (hi : i < s.numNodes) :
    (s.sinkAppendText p t).dataOf i = s.dataOf i := by
  by_cases htext : ∃ lastId contents, (s.childrenOf p).getLast? = some lastId ∧
    s.dataOf lastId = some (.text contents)
  · rcases htext with ⟨lastId, contents, hl, hd⟩
    rw [sinkAppendText_merge s p t lastId contents hl hd]
    rw [dataOf_appendChild, dataOf_newNode]
    rw [if_neg (show ¬ i = (s.modifyChildrenOf p fun ch => ch.dropLast).numNodes by
      rw [numNodes_modifyChildrenOf]; omega)]
    rw [dataOf_modifyChildrenOf]
  · rw [sinkAppendText_push s p t (push_cond_of_not_text s p htext)]
    rw [dataOf_appendChild, dataOf_newNode, if_neg (show ¬ i = s.numNodes by omega)]

theorem numNodes_sinkAppendText (s : Store) (p : Nat) (t : String) :
    (s.sinkAppendText p t).numNodes = s.numNodes + 1 := by
  by_cases htext : ∃ lastId contents, (s.childrenOf p).getLast? = some lastId ∧
    s.dataOf lastId = some (.text contents)
  · rcases htext with ⟨lastId, contents, hl, hd⟩
    rw [sinkAppendText_merge s p t lastId contents hl hd]
    rw [numNodes_appendChild, numNodes_newNode, numNodes_modifyChildrenOf]
  · rw [sinkAppendText_push s p t (push_cond_of_not_text s p htext)]
    rw [numNodes_appendChild, numNodes_newNode]

theorem childrenOf_sinkAppendText_ne (s : Store) (p : Nat) (t : String) (q : Nat)
    (h : q ≠ p) :
    (s.sinkAppendText p t).childrenOf q = s.childrenOf q := by
  by_cases htext : ∃ lastId contents, (s.childrenOf p).getLast? = some lastId ∧
    s.dataOf lastId = some (.text contents)
  · rcases htext with ⟨lastId, contents, hl, hd⟩
    rw [sinkAppendText_merge s p t lastId contents hl hd]
    rw [childrenOf_appendChild_ne _ p _ q h, childrenOf_newNode,
      childrenOf_modifyChildrenOf_ne s p _ q h]
  · rw [sinkAppendText_push s p t (push_cond_of_not_text s p htext)]
    rw [childrenOf_appendChild_ne _ p _ q h, childrenOf_newNode]


theorem consec_merge_branch (s2 : Store) (q2 : Nat) (t : String) (lastId : Nat)
    (contents : String)
    (hb : s2.boundedB = true) (hql : q2 < s2.numNodes)
    (hl : (s2.childrenOf q2).getLast? = some lastId)
    (hd : s2.dataOf lastId = some (.text contents))
    (hcons : consecTexts s2 (s2.childrenOf q2) = false) :
    consecTexts (s2.sinkAppendText q2 t) ((s2.sinkAppendText q2 t).childrenOf q2) = false := by
  have hch2 : (s2.sinkAppendText q2 t).childrenOf q2
      = (s2.childrenOf q2).dropLast ++ [s2.numNodes] := by
    rw [sinkAppendText_merge s2 q2 t lastId contents hl hd,
      childrenOf_appendChild_parent _ q2 _
        (by rw [numNodes_newNode, numNodes_modifyChildrenOf]; omega),
      newNode_snd, numNodes_modifyChildrenOf, childrenOf_newNode,
      childrenOf_modifyChildrenOf_self s2 q2 _ hql]
  have hcongr : ∀ i ∈ (s2.childrenOf q2).dropLast,
      (s2.sinkAppendText q2 t).isTextNode i = s2.isTextNode i := by
    intro i hi
    have hi2 : i ∈ s2.childrenOf q2 := List.dropLast_subset _ hi
    exact isTextNode_congr s2 _ i
      (dataOf_sinkAppendText s2 q2 t i (boundedB_spec s2 hb q2 i hi2))
  rw [hch2]
  apply consecTexts_concat
  · rw [consecTexts_congr s2 _ _ hcongr]
    exact consecTexts_dropLast s2 _ hcons
  · intro x2 hx2
    have hx2mem : x2 ∈ (s2.childrenOf q2).dropLast := List.mem_of_getLast?_eq_some hx2
    have hxlt : x2 < s2.numNodes :=
      boundedB_spec s2 hb q2 x2 (List.dropLast_subset _ hx2mem)
    have hTlast : s2.isTextNode lastId = true := by
      unfold Store.isTextNode
      rw [hd]
    have hpair := consec_last_pair s2 (s2.childrenOf q2) lastId x2 hcons hl hx2
    rw [hTlast, Bool.and_true] at hpair
    rw [isTextNode_congr s2 _ x2 (dataOf_sinkAppendText s2 q2 t x2 hxlt), hpair]
    rfl

theorem consec_push_branch (s2 : Store) (q2 : Nat) (t : String)
    (hb : s2.boundedB = true) (hql : q2 < s2.numNodes)
    (hpushc : ∀ lastId, (s2.childrenOf q2).getLast? = some lastId →
      s2.isTextNode lastId = false)
    (hcons : consecTexts s2 (s2.childrenOf q2) = false) :
    consecTexts (s2.sinkAppendText q2 t) ((s2.sinkAppendText q2 t).childrenOf q2) = false := by
  have hch2 : (s2.sinkAppendText q2 t).childrenOf q2
      = s2.childrenOf q2 ++ [s2.numNodes] := by
    rw [sinkAppendText_push s2 q2 t hpushc,
      childrenOf_appendChild_parent _ q2 _ (by rw [numNodes_newNode]; omega),
      newNode_snd, childrenOf_newNode]
  have hcongr : ∀ i ∈ s2.childrenOf q2,
      (s2.sinkAppendText q2 t).isTextNode i = s2.isTextNode i := by
    intro i hi
    exact isTextNode_congr s2 _ i
      (dataOf_sinkAppendText s2 q2 t i (boundedB_spec s2 hb q2 i hi))
  rw [hch2]
  apply consecTexts_concat
  · rw [consecTexts_congr s2 _ _ hcongr]
    exact hcons
  · intro lastId hl
    rw [hcongr lastId (List.mem_of_getLast?_eq_some hl), hpushc lastId hl]
    rfl

theorem consec_preserved_sinkAppend (s2 : Store) (q q2 : Nat) (x : NodeOrText)
    (hb : s2.boundedB = true) (hql : q < s2.numNodes)
    (hnode : ∀ n, x = NodeOrText.appendNode n → s2.isTextNode n = false)
    (hcons : consecTexts s2 (s2.childrenOf q2) = false) :
    consecTexts (s2.sinkAppend q x) ((s2.sinkAppend q x).childrenOf q2) = false := by
  cases x with
  | appendNode n =>
    have hnt := hnode n rfl
    show consecTexts (s2.appendChild q n) ((s2.appendChild q n).childrenOf q2) = false
    have hcongr : ∀ l (hsub : ∀ i ∈ l, True),
        consecTexts (s2.appendChild q n) l = consecTexts s2 l := fun l _ =>
      consecTexts_congr s2 _ l (fun i _ => isTextNode_congr s2 _ i (dataOf_appendChild s2 q n i))
    by_cases hq : q2 = q
    · subst hq
      rw [childrenOf_appendChild_parent s2 q2 n hql, hcongr _ (fun i _ => trivial)]
      apply consecTexts_concat s2 _ n hcons
      intro lastId hl
      rw [hnt]
      exact Bool.and_false _
    · rw [childrenOf_appendChild_ne s2 q n q2 hq, hcongr _ (fun i _ => trivial)]
      exact hcons
  | appendText t =>
    show consecTexts (s2.sinkAppendText q t) ((s2.sinkAppendText q t).childrenOf q2) = false
    by_cases hq : q2 = q
    · subst hq
      by_cases htext : ∃ lastId contents, (s2.childrenOf q2).getLast? = some lastId ∧
          s2.dataOf lastId = some (.text contents)
      · rcases htext with ⟨lastId, contents, hl, hd⟩
        exact consec_merge_branch s2 q2 t lastId contents hb hql hl hd hcons
      · exact consec_push_branch s2 q2 t hb hql (push_cond_of_not_text s2 q2 htext) hcons
    · rw [childrenOf_sinkAppendText_ne s2 q t q2 hq]
      have hcongr : ∀ i ∈ s2.childrenOf q2,
          (s2.sinkAppendText q t).isTextNode i = s2.isTextNode i := by
        intro i hi
        exact isTextNode_congr s2 _ i
          (dataOf_sinkAppendText s2 q t i (boundedB_spec s2 hb q2 i hi))
      rw [consecTexts_congr s2 _ _ hcongr]
      exact hcons


/-- C2: two text fragments appended consecutively through the sink to a
parent whose current last child is not a Text node (the start of a fresh
text run) coalesce into exactly one fresh Text child at the end of the
children, holding the two fragments concatenated in append order; and a
sink append — of text, or of a node that is not a Text node, which is the
only kind of node handle the parser protocol can pass, since no sink
constructor hands out Text handles — never leaves two adjacent Text children
under any parent of a bounded store. -/
theorem c2_text_coalescing (s : Store) (p : Nat) (t1 t2 : String)
    (hp : p < s.numNodes)
    (hlast : ∀ lastId, (s.childrenOf p).getLast? = some lastId →
      s.isTextNode lastId = false) :
    ((s.sinkAppendText p t1).sinkAppendText p t2).childrenOf p
        = s.childrenOf p ++ [s.numNodes + 1] ∧
    ((s.sinkAppendText p t1).sinkAppendText p t2).dataOf (s.numNodes + 1)
        = some (.text (t1 ++ t2)) ∧
    (∀ (s2 : Store) (q q2 : Nat) (x : NodeOrText), s2.boundedB = true →
      q < s2.numNodes →
      (∀ n, x = NodeOrText.appendNode n → s2.isTextNode n = false) →
      consecTexts s2 (s2.childrenOf q2) = false →
      consecTexts (s2.sinkAppend q x) ((s2.sinkAppend q x).childrenOf q2) = false) := by
  have hpush := sinkAppendText_push s p t1 hlast
  have hs1ch : (s.sinkAppendText p t1).childrenOf p = s.childrenOf p ++ [s.numNodes] := by
    rw [hpush, childrenOf_appendChild_parent _ p _ (by rw [numNodes_newNode]; omega),
      newNode_snd, childrenOf_newNode]
  have hs1data : (s.sinkAppendText p t1).dataOf s.numNodes = some (.text t1) := by
    rw [hpush, dataOf_appendChild, dataOf_newNode, if_pos rfl]
  have hs1n : (s.sinkAppendText p t1).numNodes = s.numNodes + 1 :=
    numNodes_sinkAppendText s p t1
  have hl2 : ((s.sinkAppendText p t1).childrenOf p).getLast? = some s.numNodes := by
    rw [hs1ch]
    exact List.getLast?_concat _
  have hmerge := sinkAppendText_merge (s.sinkAppendText p t1) p t2 s.numNodes t1 hl2 hs1data
  refine ⟨?_, ?_, ?_⟩
  · rw [hmerge,
      childrenOf_appendChild_parent _ p _
        (by rw [numNodes_newNode, numNodes_modifyChildrenOf, hs1n]; omega),
      newNode_snd, numNodes_modifyChildrenOf, hs1n, childrenOf_newNode,
      childrenOf_modifyChildrenOf_self _ p _ (by rw [hs1n]; omega), hs1ch]
    rw [List.dropLast_concat]
  · rw [hmerge, dataOf_appendChild, dataOf_newNode, numNodes_modifyChildrenOf, hs1n,
      if_pos rfl]
  · exact fun s2 q q2 x hb hql hnode hcons =>
      consec_preserved_sinkAppend s2 q q2 x hb hql hnode hcons

/-- C2 witness: appending "ab" then "cd" under node 0 of `exStore` (whose
last child is a Comment) yields the single fresh Text child 4 holding
"abcd"; the no-adjacent-text invariant clause is carried along
instantiated. -/
theorem c2_witness :
    (0 < exStore.numNodes) ∧
    (((exStore.sinkAppendText 0 "ab").sinkAppendText 0 "cd").childrenOf 0
        = exStore.childrenOf 0 ++ [exStore.numNodes + 1] ∧
      ((exStore.sinkAppendText 0 "ab").sinkAppendText 0 "cd").dataOf (exStore.numNodes + 1)
        = some (.text ("ab" ++ "cd")) ∧
      (∀ (s2 : Store) (q q2 : Nat) (x : NodeOrText), s2.boundedB = true →
        q < s2.numNodes →
        (∀ n, x = NodeOrText.appendNode n → s2.isTextNode n = false) →
        consecTexts s2 (s2.childrenOf q2) = false →
        consecTexts (s2.sinkAppend q x) ((s2.sinkAppend q x).childrenOf q2) = false)) :=
  ⟨by decide,
    c2_text_coalescing exStore 0 "ab" "cd" (by decide)
      (by
        intro lastId hl
        have h2 : exStore.childrenOf 0 = [1] := rfl
        rw [h2] at hl
        simp at hl
        subst hl
        decide)⟩


theorem dataOf_foldl_appendChild (l : List Nat) (s : Store) (np i : Nat) :
    (l.foldl (fun acc c => acc.appendChild np c) s).dataOf i = s.dataOf i := by
  induction l generalizing s with
  | nil => rfl
  | cons a tl ih => rw [List.foldl_cons, ih, dataOf_appendChild]

theorem numNodes_foldl_appendChild (l : List Nat) (s : Store) (np : Nat) :
    (l.foldl (fun acc c => acc.appendChild np c) s).numNodes = s.numNodes := by
  induction l generalizing s with
  | nil => rfl
  | cons a tl ih => rw [List.foldl_cons, ih, numNodes_appendChild]

theorem dataOf_applyDomOp (s : Store) (op : DomOp) (i : Nat) (hi : i < s.numNodes) :
    (s.applyDomOp op).dataOf i = s.dataOf i := by
  cases op with
  | newNode d =>
    show ((s.newNode d).1).dataOf i = s.dataOf i
    rw [dataOf_newNode, if_neg (show ¬ i = s.numNodes by omega)]
  | appendChild p c => exact dataOf_appendChild s p c i
  | insertBefore p c r => exact dataOf_insertBefore s p c r i
  | removeChild p c => exact dataOf_modifyChildrenOf s p _ i
  | sinkAppend p x =>
    cases x with
    | appendNode n => exact dataOf_appendChild s p n i
    | appendText t => exact dataOf_sinkAppendText s p t i hi
  | appendBeforeSibling sib x =>
    show ((s.appendBeforeSibling sib x).getD s).dataOf i = s.dataOf i
    cases x with
    | appendNode n =>
      unfold Store.appendBeforeSibling
      rcases hps : s.parentOf sib with _ | p2
      · rfl
      · exact dataOf_insertBefore s p2 n sib i
    | appendText t =>
      unfold Store.appendBeforeSibling
      rcases hps : s.parentOf sib with _ | p2
      · rfl
      · show ((s.newNode (NodeData.text t)).1.insertBefore p2
            (s.newNode (NodeData.text t)).2 sib).dataOf i = s.dataOf i
        rw [dataOf_insertBefore, dataOf_newNode, if_neg (show ¬ i = s.numNodes by omega)]
  | appendDoctypeToDocument root nm pid sid =>
    show ((s.newNode (.doctype nm pid sid)).1.appendChild root
        (s.newNode (.doctype nm pid sid)).2).dataOf i = s.dataOf i
    rw [dataOf_appendChild, dataOf_newNode, if_neg (show ¬ i = s.numNodes by omega)]
  | removeFromParent tn =>
    show (s.removeFromParent tn).dataOf i = s.dataOf i
    unfold Store.removeFromParent
    rcases hps : s.parentOf tn with _ | p2
    · rfl
    · exact dataOf_modifyChildrenOf s p2 _ i
  | reparentChildren n np =>
    show ((s.childrenOf n).foldl (fun acc c => acc.appendChild np c)
        (s.modifyChildrenOf n (fun _ => []))).dataOf i = s.dataOf i
    rw [dataOf_foldl_appendChild, dataOf_modifyChildrenOf]

theorem numNodes_le_applyDomOp (s : Store) (op : DomOp) :
    s.numNodes ≤ (s.applyDomOp op).numNodes := by
  cases op with
  | newNode d =>
    show s.numNodes ≤ ((s.newNode d).1).numNodes
    rw [numNodes_newNode]
    omega
  | appendChild p c =>
    show s.numNodes ≤ (s.appendChild p c).numNodes
    rw [numNodes_appendChild]
  | insertBefore p c r =>
    show s.numNodes ≤ (s.insertBefore p c r).numNodes
    rw [numNodes_insertBefore]
  | removeChild p c =>
    show s.numNodes ≤ (s.modifyChildrenOf p _).numNodes
    rw [numNodes_modifyChildrenOf]
  | sinkAppend p x =>
    cases x with
    | appendNode n =>
      show s.numNodes ≤ (s.appendChild p n).numNodes
      rw [numNodes_appendChild]
    | appendText t =>
      show s.numNodes ≤ (s.sinkAppendText p t).numNodes
      rw [numNodes_sinkAppendText]
      omega
  | appendBeforeSibling sib x =>
    show s.numNodes ≤ ((s.appendBeforeSibling sib x).getD s).numNodes
    cases x with
    | appendNode n =>
      unfold Store.appendBeforeSibling
      rcases hps : s.parentOf sib with _ | p2
      · exact Nat.le_refl _
      · show s.numNodes ≤ (s.insertBefore p2 n sib).numNodes
        rw [numNodes_insertBefore]
    | appendText t =>
      unfold Store.appendBeforeSibling
      rcases hps : s.parentOf sib with _ | p2
      · exact Nat.le_refl _
      · show s.numNodes ≤ ((s.newNode (NodeData.text t)).1.insertBefore p2
            (s.newNode (NodeData.text t)).2 sib).numNodes
        rw [numNodes_insertBefore, numNodes_newNode]
        omega
  | appendDoctypeToDocument root nm pid sid =>
    show s.numNodes ≤ ((s.newNode (.doctype nm pid sid)).1.appendChild root
        (s.newNode (.doctype nm pid sid)).2).numNodes
    rw [numNodes_appendChild, numNodes_newNode]
    omega
  | removeFromParent tn =>
    show s.numNodes ≤ (s.removeFromParent tn).numNodes
    unfold Store.removeFromParent
    rcases hps : s.parentOf tn with _ | p2
    · exact Nat.le_refl _
    · show s.numNodes ≤ (s.modifyChildrenOf p2 _).numNodes
      rw [numNodes_modifyChildrenOf]
  | reparentChildren n np =>
    show s.numNodes ≤ ((s.childrenOf n).foldl (fun acc c => acc.appendChild np c)
        (s.modifyChildrenOf n (fun _ => []))).numNodes
    rw [numNodes_foldl_appendChild, numNodes_modifyChildrenOf]

/-- C10: no operation of the Node/Document/Sink layer — allocation,
append_child, insert_before, remove_child, the sink append (text
coalescing included), append_before_sibling, append_doctype_to_document,
remove_from_parent, reparent_children — ever changes the data field
(variant and payload) of an already-allocated node: over any operation
sequence, every existing node's data is exactly what it was allocated
with; all mutation is confined to the parent and children cells, and text
coalescing in particular replaces the old Text node with a fresh
allocation rather than rewriting it. -/
theorem c10_data_immutable (s : Store) (ops : List DomOp) (i : Nat)
    (hi : i < s.numNodes) :
    (s.applyDomOps ops).dataOf i = s.dataOf i := by
  induction ops generalizing s with
  | nil => rfl
  | cons op ops ih =>
    show ((s.applyDomOp op).applyDomOps ops).dataOf i = s.dataOf i
    rw [ih (s.applyDomOp op) (Nat.lt_of_lt_of_le hi (numNodes_le_applyDomOp s op)),
      dataOf_applyDomOp s op i hi]

/-- C10 witness: node 2 of `exTextStore` still reads Text "hi" after a
sequence exercising every operation kind. -/
theorem c10_witness :
    (2 < exTextStore.numNodes) ∧
    (exTextStore.applyDomOps exC10Ops).dataOf 2 = exTextStore.dataOf 2 :=
  ⟨by decide, c10_data_immutable exTextStore exC10Ops 2 (by decide)⟩


theorem attach_step (s s' : Store) (p c : Nat)
    (hp : p < s.numNodes) (hc : c < s.numNodes)
    (hnum : s'.numNodes = s.numNodes)
    (hparc : s'.parentOf c = some p)
    (hparne : ∀ d, d ≠ c → s'.parentOf d = s.parentOf d)
    (hchp : ∀ d, d ∈ s'.childrenOf p ↔ d ∈ s.childrenOf p ∨ d = c)
    (hchne : ∀ q, q ≠ p → s'.childrenOf q = s.childrenOf q)
    (hcnowhere : ∀ q, c ∉ s.childrenOf q)
    (hA : ∀ d q, d ∈ s.childrenOf q → s.parentOf d ≠ none)
    (hB : ∀ d r2, s.parentOf d = some r2 → d ∈ s.childrenOf r2 ∧
      ∀ q, d ∈ s.childrenOf q → q = r2)
    (hBd : ∀ d q, d ∈ s.childrenOf q → d < s.numNodes) :
    (∀ d q, d ∈ s'.childrenOf q → s'.parentOf d ≠ none) ∧
    (∀ d r2, s'.parentOf d = some r2 → d ∈ s'.childrenOf r2 ∧
      ∀ q, d ∈ s'.childrenOf q → q = r2) ∧
    (∀ d q, d ∈ s'.childrenOf q → d < s'.numNodes) := by
  refine ⟨?_, ?_, ?_⟩
  · intro d q hd
    by_cases hdc : d = c
    · subst hdc
      rw [hparc]
      simp
    · rw [hparne d hdc]
      by_cases hqp : q = p
      · subst hqp
        rcases (hchp d).mp hd with h1 | h1
        · exact hA d q h1
        · exact absurd h1 hdc
      · rw [hchne q hqp] at hd
        exact hA d q hd
  · intro d r2 hd
    by_cases hdc : d = c
    · subst hdc
      rw [hparc] at hd
      injection hd with hd2
      constructor
      · rw [← hd2]
        exact (hchp d).mpr (Or.inr rfl)
      · intro q hq
        rw [← hd2]
        by_cases hqp : q = p
        · exact hqp
        · rw [hchne q hqp] at hq
          exact absurd hq (hcnowhere q)
    · rw [hparne d hdc] at hd
      rcases hB d r2 hd with ⟨hmem, huniq⟩
      constructor
      · by_cases hrp : r2 = p
        · subst hrp
          exact (hchp d).mpr (Or.inl hmem)
        · rw [hchne r2 hrp]
          exact hmem
      · intro q hq
        by_cases hqp : q = p
        · subst hqp
          rcases (hchp d).mp hq with h1 | h1
          · exact huniq q h1
          · exact absurd h1 hdc
        · rw [hchne q hqp] at hq
          exact huniq q hq
  · intro d q hd
    rw [hnum]
    by_cases hqp : q = p
    · subst hqp
      rcases (hchp d).mp hd with h1 | h1
      · exact hBd d q h1
      · subst h1
        exact hc
    · rw [hchne q hqp] at hd
      exact hBd d q hd

theorem treeOps_invariant : ∀ (ops : List TreeOp) (s : Store),
    wfTreeOps s.numNodes ops = true →
    (childArgs ops).Nodup →
    (∀ c, s.parentOf c ≠ none → c ∉ childArgs ops) →
    (∀ c q, c ∈ s.childrenOf q → s.parentOf c ≠ none) →
    (∀ c p, s.parentOf c = some p → c ∈ s.childrenOf p ∧
      ∀ q, c ∈ s.childrenOf q → q = p) →
    (∀ c q, c ∈ s.childrenOf q → c < s.numNodes) →
    ((∀ c q, c ∈ (s.applyTreeOps ops).childrenOf q →
        (s.applyTreeOps ops).parentOf c ≠ none) ∧
      (∀ c p, (s.applyTreeOps ops).parentOf c = some p →
        c ∈ (s.applyTreeOps ops).childrenOf p ∧
        ∀ q, c ∈ (s.applyTreeOps ops).childrenOf q → q = p) ∧
      (∀ c q, c ∈ (s.applyTreeOps ops).childrenOf q →
        c < (s.applyTreeOps ops).numNodes)) := by
  intro ops
  induction ops with
  | nil =>
    intro s hwf hnd hAtt hA hB hBd
    exact ⟨hA, hB, hBd⟩
  | cons op ops ih =>
    intro s hwf hnd hAtt hA hB hBd
    show (∀ c q, c ∈ ((s.applyTreeOp op).applyTreeOps ops).childrenOf q → _) ∧ _
    cases op with
    | newNode d =>
      have hwf2 : wfTreeOps ((s.newNode d).1.numNodes) ops = true := by
        rw [numNodes_newNode]
        exact hwf
      have hargs : childArgs (TreeOp.newNode d :: ops) = childArgs ops := by
        simp [childArgs, List.filterMap_cons, childArg]
      rw [hargs] at hnd hAtt
      refine ih (s.newNode d).1 hwf2 hnd ?_ ?_ ?_ ?_
      · intro c2 hc2
        rw [parentOf_newNode] at hc2
        exact hAtt c2 hc2
      · intro c2 q hc2
        rw [childrenOf_newNode] at hc2
        rw [parentOf_newNode]
        exact hA c2 q hc2
      · intro c2 p2 hc2
        rw [parentOf_newNode] at hc2
        rcases hB c2 p2 hc2 with ⟨hmem, huniq⟩
        constructor
        · rw [childrenOf_newNode]
          exact hmem
        · intro q hq
          rw [childrenOf_newNode] at hq
          exact huniq q hq
      · intro c2 q hc2
        rw [childrenOf_newNode] at hc2
        rw [numNodes_newNode]
        exact Nat.lt_succ_of_lt (hBd c2 q hc2)
    | appendChild p c =>
      have hwf3 : p < s.numNodes ∧ c < s.numNodes ∧ wfTreeOps s.numNodes ops = true := by
        unfold wfTreeOps at hwf
        simp only [Bool.and_eq_true, decide_eq_true_eq] at hwf
        exact ⟨hwf.1.1, hwf.1.2, hwf.2⟩
      rcases hwf3 with ⟨hpn, hcn, hwf2⟩
      have hargs : childArgs (TreeOp.appendChild p c :: ops) = c :: childArgs ops := by
        simp [childArgs, List.filterMap_cons, childArg]
      rw [hargs] at hnd hAtt
      have hnotail : c ∉ childArgs ops := (List.nodup_cons.mp hnd).1
      have hndtail : (childArgs ops).Nodup := (List.nodup_cons.mp hnd).2
      have hc0 : s.parentOf c = none := by
        rcases hpc : s.parentOf c with _ | p2
        · rfl
        · exact absurd (List.mem_cons_self c _) (hAtt c (by rw [hpc]; simp))
      have hcnowhere : ∀ q, c ∉ s.childrenOf q := by
        intro q hq
        exact (hA c q hq) hc0
      have hstep := attach_step s (s.appendChild p c) p c hpn hcn
        (numNodes_appendChild s p c)
        (parentOf_appendChild_child s p c hcn)
        (fun d hd => parentOf_appendChild_ne s p c d hd)
        (fun d => by
          rw [childrenOf_appendChild_parent s p c hpn]
          simp)
        (fun q hq => childrenOf_appendChild_ne s p c q hq)
        hcnowhere hA hB hBd
      have hwf4 : wfTreeOps ((s.appendChild p c).numNodes) ops = true := by
        rw [numNodes_appendChild]
        exact hwf2
      refine ih (s.appendChild p c) hwf4 hndtail ?_ hstep.1 hstep.2.1 ?_
      · intro d hd
        by_cases hdc : d = c
        · subst hdc
          exact hnotail
        · rw [parentOf_appendChild_ne s p c d hdc] at hd
          exact fun hmem => hAtt d hd (List.mem_cons_of_mem c hmem)
      · intro d q hd
        have := hstep.2.2 d q hd
        rw [numNodes_appendChild] at this
        rw [numNodes_appendChild]
        exact this
    | insertBefore p c r =>
      have hwf3 : p < s.numNodes ∧ c < s.numNodes ∧ wfTreeOps s.numNodes ops = true := by
        unfold wfTreeOps at hwf
        simp only [Bool.and_eq_true, decide_eq_true_eq] at hwf
        exact ⟨hwf.1.1.1, hwf.1.1.2, hwf.2⟩
      rcases hwf3 with ⟨hpn, hcn, hwf2⟩
      have hargs : childArgs (TreeOp.insertBefore p c r :: ops) = c :: childArgs ops := by
        simp [childArgs, List.filterMap_cons, childArg]
      rw [hargs] at hnd hAtt
      have hnotail : c ∉ childArgs ops := (List.nodup_cons.mp hnd).1
      have hndtail : (childArgs ops).Nodup := (List.nodup_cons.mp hnd).2
      have hc0 : s.parentOf c = none := by
        rcases hpc : s.parentOf c with _ | p2
        · rfl
        · exact absurd (List.mem_cons_self c _) (hAtt c (by rw [hpc]; simp))
      have hcnowhere : ∀ q, c ∉ s.childrenOf q := by
        intro q hq
        exact (hA c q hq) hc0
      have hstep := attach_step s (s.insertBefore p c r) p c hpn hcn
        (numNodes_insertBefore s p c r)
        (parentOf_insertBefore_child s p c r hcn)
        (fun d hd => parentOf_insertBefore_ne s p c r d hd)
        (fun d => by
          rw [childrenOf_insertBefore_parent s p c r hpn]
          exact mem_insertBeforeList (s.childrenOf p) c r)
        (fun q hq => childrenOf_insertBefore_ne s p c r q hq)
        hcnowhere hA hB hBd
      have hwf4 : wfTreeOps ((s.insertBefore p c r).numNodes) ops = true := by
        rw [numNodes_insertBefore]
        exact hwf2
      refine ih (s.insertBefore p c r) hwf4 hndtail ?_ hstep.1 hstep.2.1 ?_
      · intro d hd
        by_cases hdc : d = c
        · subst hdc
          exact hnotail
        · rw [parentOf_insertBefore_ne s p c r d hdc] at hd
          exact fun hmem => hAtt d hd (List.mem_cons_of_mem c hmem)
      · intro d q hd
        have := hstep.2.2 d q hd
        rw [numNodes_insertBefore] at this
        rw [numNodes_insertBefore]
        exact this


theorem parentOf_emptyStore (c : Nat) : emptyStore.parentOf c = none := by
  unfold Store.parentOf emptyStore
  simp

theorem childrenOf_emptyStore (c : Nat) : emptyStore.childrenOf c = [] := by
  unfold Store.childrenOf emptyStore
  simp

/-- C1 counterexample: run [new Document (node 0), new Document (node 1),
new Comment (node 2), append_child 0 2, append_child 1 2] — every call
legal on fresh nodes.  Node 2 ends up in the children of BOTH node 0 and
node 1 while its back-reference resolves to node 1 only, so "the one node
whose children sequence contains it" is not unique and the back-reference
does not point at node 0 although node 0 contains it. -/
theorem c1_counterexample :
    2 ∈ (runTreeOps exC1Ops).childrenOf 0 ∧
    2 ∈ (runTreeOps exC1Ops).childrenOf 1 ∧
    (runTreeOps exC1Ops).parentOf 2 = some 1 ∧
    (runTreeOps exC1Ops).parentOf 2 ≠ some 0 := by
  refine ⟨by decide, by decide, by decide, by decide⟩

/-- C1 (amended): for every well-formed sequence of Node::new /
append_child / insert_before calls starting from the empty heap in which
each node is attached at most once (each node occurs as the child argument
of at most one attaching call — the discipline the parsing protocol
follows), every attached node's parent back-reference resolves to exactly
the one node whose children sequence contains it.  Without the attach-once
proviso the back-reference still resolves to a node containing the child,
but that node need not be unique, as the counterexample shows. -/
theorem c1_attach_parent_unique (ops : List TreeOp)
    (hwf : wfTreeOps 0 ops = true) (honce : (childArgs ops).Nodup) :
    ∀ c p, (runTreeOps ops).parentOf c = some p →
      c ∈ (runTreeOps ops).childrenOf p ∧
      ∀ q, c ∈ (runTreeOps ops).childrenOf q → q = p := by
  have h := treeOps_invariant ops emptyStore hwf honce
    (fun c hc => absurd (parentOf_emptyStore c) hc)
    (fun c q hc => absurd hc (by
      rw [childrenOf_emptyStore]
      exact List.not_mem_nil c))
    (fun c p hc => by
      rw [parentOf_emptyStore] at hc
      cases hc)
    (fun c q hc => absurd hc (by
      rw [childrenOf_emptyStore]
      exact List.not_mem_nil c))
  exact h.2.1

/-- C1 witness: run [new Document, new Comment, append_child 0 1]; node 1's
back-reference resolves to node 0, the unique node whose children contain
it. -/
theorem c1_witness :
    (wfTreeOps 0 exC1WitnessOps = true ∧ (childArgs exC1WitnessOps).Nodup) ∧
    ((runTreeOps exC1WitnessOps).parentOf 1 = some 0 ∧
      1 ∈ (runTreeOps exC1WitnessOps).childrenOf 0 ∧
      ∀ q, 1 ∈ (runTreeOps exC1WitnessOps).childrenOf q → q = 0) :=
  ⟨⟨by decide, by decide⟩,
    by
      have h := c1_attach_parent_unique exC1WitnessOps (by decide) (by decide) 1 0 (by decide)
      exact ⟨by decide, h.1, h.2⟩⟩

end Icarus
